import Mathlib

/-!
Verification of the graph-construction and batch-collation core of
`roost/data.py` (class `CompositionData`, function `collate_batch`, class
`Normalizer`).  Tensors are modelled as Lean lists over `ℚ`, integer index
tensors as lists over `ℕ`.  The composition parser (`roost.parse.parse`) and
the featuriser (`roost.features.LoadFeaturiser`) are external collaborators
and enter as function parameters.
-/

/-- One composition's atom graph, the first component of the tuple returned by
`CompositionData.__getitem__`: `(atom_weights, atom_fea, self_fea_idx,
nbr_fea_idx)`. -/
structure AtomGraph where
  atom_weights : List ℚ
  atom_fea : List (List ℚ)
  self_fea_idx : List ℕ
  nbr_fea_idx : List ℕ
deriving DecidableEq, Repr

/-- `weights = np.atleast_2d(weights).T / np.sum(weights)` (data.py line 214):
divide every parsed weight by the sum of all parsed weights, keeping the
parsed order.  NumPy elementwise division does not raise on a zero divisor,
so the embedding uses Lean's total division on `ℚ`. -/
def normalizeWeights (ws : List ℚ) : List ℚ :=
  ws.map (fun w => w / ws.sum)

/-- The `self_fea_idx` accumulator of the edge loop in
`CompositionData.__getitem__` (data.py lines 225-230): for each position `i`
of the element list, append `[i] * len(nbrs)` where
`nbrs = elements[:i] + elements[i+1:]`. -/
def self_fea_idx (es : List String) : List ℕ :=
  (List.range es.length).flatMap
    (fun i => List.replicate (es.take i ++ es.drop (i + 1)).length i)

/-- The `nbr_fea_idx` accumulator of the same loop: for each position `i`,
append `env_idx[:i] + env_idx[i+1:]` where `env_idx = list(range(len(elements)))`
(data.py lines 224-230). -/
def nbr_fea_idx (es : List String) : List ℕ :=
  (List.range es.length).flatMap
    (fun i => (List.range es.length).take i ++ (List.range es.length).drop (i + 1))

/-- Errors that `CompositionData.__getitem__` lets escape to its caller:
a parse failure from `parse(composition)` (line 213) and the
`assert len(elements) != 1` pure-system rejection (lines 215-216). -/
inductive GetErr where
  | parseError : GetErr
  | pureSystem : GetErr
deriving DecidableEq, Repr

/-- Possible outcomes of one `__getitem__` call: a normal return, an error
raised to the caller, or the `print(composition); sys.exit()` path of the
`except AssertionError` handler (data.py lines 220-222), which terminates the
process instead of raising. -/
inductive Outcome (α : Type) where
  | ok : α → Outcome α
  | raised : GetErr → Outcome α
  | exited : Outcome α
deriving DecidableEq, Repr

/-- One row of the backing table `self.df`: `cry_id, composition, target`. -/
structure Row where
  cry_id : String
  composition : String
  target : ℚ
deriving DecidableEq, Repr

/-- The body of `CompositionData.__getitem__` (data.py lines 211-240) after
the row lookup, parameterised by the external parser and featuriser:
parse the composition; normalize the weights by their sum; assert the system
is not pure (exactly one element); featurise every element, exiting the
process if a lookup fails (the reference catches the featuriser's
`AssertionError`, prints and calls `sys.exit()`); build the fully-connected
edge lists; return the graph with target, composition and id. -/
def getitem (parse : String → Except Unit (List String × List ℚ))
    (getFea : String → Option (List ℚ)) (row : Row) :
    Outcome (AtomGraph × ℚ × String × String) :=
  match parse row.composition with
  | .error _ => .raised .parseError
  | .ok (elements, ws) =>
    let weights := normalizeWeights ws
    if elements.length = 1 then .raised .pureSystem
    else
      match elements.mapM getFea with
      | none => .exited
      | some atom_fea =>
        .ok (⟨weights, atom_fea, self_fea_idx elements, nbr_fea_idx elements⟩,
          row.target, row.composition, row.cry_id)

/-- One element of the `dataset_list` argument of `collate_batch`:
`((atom_weights, atom_fea, self_fea_idx, nbr_fea_idx), target, comp, cry_id)`. -/
structure Item where
  graph : AtomGraph
  target : ℚ
  comp : String
  cry_id : String
deriving DecidableEq, Repr

/-- `n_i = atom_fea.shape[0]` (data.py line 290): the atom count of one item,
read off the feature matrix. -/
def natoms (it : Item) : ℕ := it.graph.atom_fea.length

/-- The batch returned by `collate_batch` (data.py lines 311-318). -/
structure Batch where
  batch_atom_weights : List ℚ
  batch_atom_fea : List (List ℚ)
  batch_self_fea_idx : List ℕ
  batch_nbr_fea_idx : List ℕ
  crystal_atom_idx : List ℕ
  batch_target : List ℚ
  batch_comp : List String
  batch_cry_ids : List String
deriving DecidableEq, Repr

/-- The collation loop of `collate_batch` (data.py lines 286-309) fused with
the final `torch.cat`s: `i` is the enumeration counter and `base` the running
`cry_base_idx`.  Each iteration appends the item's weights and features
unchanged, its index lists shifted by `cry_base_idx`, `n_i` copies of `i` to
`crystal_atom_idx`, and the scalar fields, then advances `cry_base_idx` by
`n_i`. -/
def collateGo : List Item → ℕ → ℕ → Batch
  | [], _, _ => ⟨[], [], [], [], [], [], [], []⟩
  | it :: rest, i, base =>
    let n_i := natoms it
    let b := collateGo rest (i + 1) (base + n_i)
    ⟨it.graph.atom_weights ++ b.batch_atom_weights,
      it.graph.atom_fea ++ b.batch_atom_fea,
      it.graph.self_fea_idx.map (fun e => e + base) ++ b.batch_self_fea_idx,
      it.graph.nbr_fea_idx.map (fun e => e + base) ++ b.batch_nbr_fea_idx,
      List.replicate n_i i ++ b.crystal_atom_idx,
      it.target :: b.batch_target,
      it.comp :: b.batch_comp,
      it.cry_id :: b.batch_cry_ids⟩

/-- `collate_batch` (data.py lines 243-318).  On an empty `dataset_list` every
accumulator list is empty and `torch.cat` (and `torch.stack`) raise a
`RuntimeError` — `torch.cat` requires a non-empty list of tensors — modelled
as `none`. -/
def collate_batch (items : List Item) : Option Batch :=
  if items.isEmpty then none else some (collateGo items 0 0)

/-- `cry_base_idx` just before item `k` is processed: the sum of the atom
counts of the items before it. -/
def offsetBefore (items : List Item) (k : ℕ) : ℕ :=
  ((items.take k).map natoms).sum

/-- Position of item `k`'s block inside the concatenated
`batch_self_fea_idx`: the summed lengths of the earlier items' `self_fea_idx`
lists. -/
def selfIdxOffset (items : List Item) (k : ℕ) : ℕ :=
  ((items.take k).map (fun it => it.graph.self_fea_idx.length)).sum

/-- Position of item `k`'s block inside the concatenated
`batch_nbr_fea_idx`. -/
def nbrIdxOffset (items : List Item) (k : ℕ) : ℕ :=
  ((items.take k).map (fun it => it.graph.nbr_fea_idx.length)).sum

/-- Position of item `k`'s block inside the concatenated
`batch_atom_weights`. -/
def weightsOffset (items : List Item) (k : ℕ) : ℕ :=
  ((items.take k).map (fun it => it.graph.atom_weights.length)).sum

/-- What `collate_batch` owes item `k` (here `it`, with `natoms it` atoms)
inside the produced batch `b`: its weights and feature rows appear unmodified
as the `k`-th block; its `self_fea_idx`/`nbr_fea_idx` contributions are the
original entries shifted by the running offset `offsetBefore items k`, hence
lie in `[offset, offset + natoms it)`; `crystal_atom_idx` holds exactly
`natoms it` copies of `k`, as the `k`-th block and in total count. -/
def itemContribution (items : List Item) (k : ℕ) (it : Item) (b : Batch) : Prop :=
  ((b.batch_atom_weights.drop (offsetBefore items k)).take (natoms it) =
      it.graph.atom_weights) ∧
  ((b.batch_atom_fea.drop (offsetBefore items k)).take (natoms it) =
      it.graph.atom_fea) ∧
  ((b.batch_self_fea_idx.drop (selfIdxOffset items k)).take
      it.graph.self_fea_idx.length =
    it.graph.self_fea_idx.map (fun e => e + offsetBefore items k)) ∧
  ((b.batch_nbr_fea_idx.drop (nbrIdxOffset items k)).take
      it.graph.nbr_fea_idx.length =
    it.graph.nbr_fea_idx.map (fun e => e + offsetBefore items k)) ∧
  (∀ e ∈ (b.batch_self_fea_idx.drop (selfIdxOffset items k)).take
      it.graph.self_fea_idx.length,
    offsetBefore items k ≤ e ∧ e < offsetBefore items k + natoms it) ∧
  (∀ e ∈ (b.batch_nbr_fea_idx.drop (nbrIdxOffset items k)).take
      it.graph.nbr_fea_idx.length,
    offsetBefore items k ≤ e ∧ e < offsetBefore items k + natoms it) ∧
  ((b.crystal_atom_idx.drop (offsetBefore items k)).take (natoms it) =
      List.replicate (natoms it) k) ∧
  (b.crystal_atom_idx.count k = natoms it)

/-- The scalar state of `Normalizer` (data.py lines 339-355): `self.mean` and
`self.std`. -/
structure Normalizer where
  mean : ℚ
  std : ℚ
deriving DecidableEq, Repr

/-- `Normalizer.norm`: `(tensor - self.mean) / self.std` (data.py line 352). -/
def Normalizer.norm (nz : Normalizer) (x : ℚ) : ℚ :=
  (x - nz.mean) / nz.std

/-- `Normalizer.denorm`: `normed_tensor * self.std + self.mean`
(data.py line 355). -/
def Normalizer.denorm (nz : Normalizer) (y : ℚ) : ℚ :=
  y * nz.std + nz.mean

/-- The memo table attached to `CompositionData.__getitem__` by
`@functools.lru_cache(maxsize=None)` (data.py line 192), together with a
ghost counter of how many times the underlying builder body has run per
index.  `maxsize=None` means the table is unbounded and never evicts. -/
structure CacheState (α : Type) where
  cache : ℕ → Option α
  calls : ℕ → ℕ

/-- Fresh dataset object: empty memo table, builder never invoked. -/
def initCache (α : Type) : CacheState α := ⟨fun _ => none, fun _ => 0⟩

/-- One `dataset[idx]` call under `lru_cache(maxsize=None)`: on a hit return
the stored value unchanged; on a miss run the builder body once, store the
result, and bump the ghost call counter for `idx`. -/
def cachedGet {α : Type} (build : ℕ → α) (st : CacheState α) (idx : ℕ) :
    α × CacheState α :=
  match st.cache idx with
  | some r => (r, st)
  | none =>
    let r := build idx
    (r, ⟨fun j => if j = idx then some r else st.cache j,
      fun j => if j = idx then st.calls j + 1 else st.calls j⟩)

/-- Run a whole sequence of `dataset[·]` accesses, returning the final cache
state. -/
def runGets {α : Type} (build : ℕ → α) : List ℕ → CacheState α → CacheState α
  | [], st => st
  | i :: rest, st => runGets build rest (cachedGet build st i).2

/-- The fully-connected edge-list contract for a composition with `M`
elements: both index lists have length `M * (M - 1)`; each `i < M` occurs
exactly `M - 1` times in `self_fea_idx`; the `i`-th block of `self_fea_idx`
is `M - 1` copies of `i` while the corresponding block of `nbr_fea_idx`
lists, in strictly increasing order, exactly the `j < M` with `j ≠ i`; and at
no position do the two lists agree (no self-loops). -/
def edgeSpec (es : List String) (M : ℕ) : Prop :=
  (self_fea_idx es).length = M * (M - 1) ∧
  (nbr_fea_idx es).length = M * (M - 1) ∧
  (∀ i, i < M → (self_fea_idx es).count i = M - 1) ∧
  (∀ i, i < M →
    ((self_fea_idx es).drop (i * (M - 1))).take (M - 1) =
      List.replicate (M - 1) i ∧
    (((nbr_fea_idx es).drop (i * (M - 1))).take (M - 1)).Sorted (fun a b => a < b) ∧
    (∀ j, j ∈ ((nbr_fea_idx es).drop (i * (M - 1))).take (M - 1) ↔ j < M ∧ j ≠ i)) ∧
  (∀ p, (hp : p < (self_fea_idx es).length) → (hq : p < (nbr_fea_idx es).length) →
    (self_fea_idx es)[p] ≠ (nbr_fea_idx es)[p])

/-- A parser stub that maps the composition `"FeZz"` to the two elements
`Fe`, `Zz` with unit weights and fails on everything else. -/
def parseFeZz : String → Except Unit (List String × List ℚ) :=
  fun s => if s = "FeZz" then .ok (["Fe", "Zz"], [1, 1]) else .error ()

/-- A featuriser stub whose table contains only `Fe`, so `Zz` is an unknown
element. -/
def feaFeOnly : String → Option (List ℚ) :=
  fun s => if s = "Fe" then some [1] else none

/-- A table row holding the composition `"FeZz"`. -/
def rowFeZz : Row := ⟨"id1", "FeZz", 0⟩

/-- The error behavior of `__getitem__` as the code implements it: a parse
failure propagates as a raised error; a single-element parse propagates the
pure-system assertion as a raised error; a failed featuriser lookup is caught
by the `except AssertionError` handler, which prints the composition and
terminates the process (`sys.exit()`), so the run aborts without the error
being raised to the caller. -/
def getitemBehavior (parse : String → Except Unit (List String × List ℚ))
    (getFea : String → Option (List ℚ)) (row : Row) : Prop :=
  (∀ u, parse row.composition = .error u →
    getitem parse getFea row = .raised .parseError) ∧
  (∀ es ws, parse row.composition = .ok (es, ws) → es.length = 1 →
    getitem parse getFea row = .raised .pureSystem) ∧
  (∀ es ws, parse row.composition = .ok (es, ws) → es.length ≠ 1 →
    es.mapM getFea = none → getitem parse getFea row = .exited)

/-- A concrete two-atom item (weights, 1-dimensional features, the M = 2 edge
lists `[0, 1]` / `[1, 0]`), used as a concrete collation input. -/
def itemA : Item := ⟨⟨[1, 1], [[1], [0]], [0, 1], [1, 0]⟩, 1, "AB", "a"⟩

/-- A second concrete two-atom item, used as a concrete collation input. -/
def itemB : Item := ⟨⟨[1, 2], [[0], [1]], [0, 1], [1, 0]⟩, 2, "CD", "b"⟩

/-! ### Theorems -/

/-- Helper: dividing every weight by the weight sum yields entries summing
to 1 whenever the sum is nonzero. -/
theorem normalizeWeights_sum (ws : List ℚ) (hne : ws.sum ≠ 0) :
    (normalizeWeights ws).sum = 1 := by
  have h : (normalizeWeights ws).sum = ws.sum / ws.sum := by
    simp only [normalizeWeights, div_eq_mul_inv]
    rw [List.sum_map_mul_right]
    simp
  rw [h, div_self hne]

/-- C3: for every parsed composition whose weights have positive sum, the
normalization keeps the length (hence the parsed element order, entry by
entry), divides each parsed weight by the sum of all parsed weights, and the
resulting entries sum to 1. -/
theorem C3_weight_normalization (ws : List ℚ) (hpos : 0 < ws.sum) :
    (normalizeWeights ws).length = ws.length ∧
    (∀ i, (h1 : i < ws.length) → (h2 : i < (normalizeWeights ws).length) →
      (normalizeWeights ws)[i] = ws[i] / ws.sum) ∧
    (normalizeWeights ws).sum = 1 := by
  refine ⟨by simp [normalizeWeights], ?_, ?_⟩
  · intro i h1 h2
    simp [normalizeWeights]
  · exact normalizeWeights_sum ws (ne_of_gt hpos)

/-- C3 witness: the weights of `"Fe2O3"`, namely `[2, 3]`, normalize to
`[2/5, 3/5]`. -/
theorem C3_weight_normalization_witness :
    (0 : ℚ) < ([2, 3] : List ℚ).sum ∧
    ((normalizeWeights [2, 3]).length = ([2, 3] : List ℚ).length ∧
      (∀ i, (h1 : i < ([2, 3] : List ℚ).length) →
        (h2 : i < (normalizeWeights [2, 3]).length) →
        (normalizeWeights [2, 3])[i] = ([2, 3] : List ℚ)[i] / ([2, 3] : List ℚ).sum) ∧
      (normalizeWeights [2, 3]).sum = 1) :=
  ⟨by norm_num, C3_weight_normalization [2, 3] (by norm_num)⟩

/-- C4: whenever the parser yields exactly one distinct element, `__getitem__`
fails with the pure-system assertion and never returns a graph. -/
theorem C4_pure_system_rejected (parse : String → Except Unit (List String × List ℚ))
    (getFea : String → Option (List ℚ)) (row : Row) (es : List String) (ws : List ℚ)
    (hp : parse row.composition = .ok (es, ws)) (h1 : es.length = 1) :
    getitem parse getFea row = .raised .pureSystem := by
  simp [getitem, hp, h1]

/-- C4 witness: a parser sending `"Fe2"` to the single element `["Fe"]` makes
`getitem` raise the pure-system error on that row. -/
theorem C4_pure_system_rejected_witness :
    (fun s => if s = "Fe2" then Except.ok (["Fe"], [(2 : ℚ)]) else Except.error ())
        "Fe2" = Except.ok (["Fe"], [(2 : ℚ)]) ∧
    (["Fe"] : List String).length = 1 ∧
    getitem (fun s => if s = "Fe2" then Except.ok (["Fe"], [(2 : ℚ)]) else Except.error ())
      (fun _ => some [1]) ⟨"id0", "Fe2", 5⟩ = .raised .pureSystem :=
  ⟨by simp, rfl,
    C4_pure_system_rejected _ (fun _ => some [1]) ⟨"id0", "Fe2", 5⟩ ["Fe"] [2]
      (by simp) rfl⟩

/-- C8: with a nonzero fitted standard deviation, `denorm` undoes `norm`
exactly over exact arithmetic. -/
theorem C8_normalizer_roundtrip (nz : Normalizer) (x : ℚ) (hstd : nz.std ≠ 0) :
    nz.denorm (nz.norm x) = x := by
  simp only [Normalizer.norm, Normalizer.denorm]
  field_simp

/-- C8 witness: with mean 3 and std 2, the value 7 round-trips. -/
theorem C8_normalizer_roundtrip_witness :
    (Normalizer.mk 3 2).std ≠ 0 ∧ (Normalizer.mk 3 2).denorm ((Normalizer.mk 3 2).norm 7) = 7 :=
  ⟨by norm_num, C8_normalizer_roundtrip ⟨3, 2⟩ 7 (by norm_num)⟩

/-- Helper: from an empty cache, every reachable state either has no entry for
an index and zero builder calls there, or holds exactly the builder's value
with exactly one call. -/
theorem runGets_invariant {α : Type} (build : ℕ → α) (ops : List ℕ) :
    ∀ j, ((runGets build ops (initCache α)).cache j = none ∧
            (runGets build ops (initCache α)).calls j = 0) ∨
         ((runGets build ops (initCache α)).cache j = some (build j) ∧
            (runGets build ops (initCache α)).calls j = 1) := by
  suffices h : ∀ (ops : List ℕ) (st : CacheState α),
      (∀ j, (st.cache j = none ∧ st.calls j = 0) ∨
        (st.cache j = some (build j) ∧ st.calls j = 1)) →
      ∀ j, ((runGets build ops st).cache j = none ∧ (runGets build ops st).calls j = 0) ∨
        ((runGets build ops st).cache j = some (build j) ∧ (runGets build ops st).calls j = 1) by
    exact h ops (initCache α) (fun j => Or.inl ⟨rfl, rfl⟩)
  intro ops
  induction ops with
  | nil => intro st hst j; exact hst j
  | cons i rest ih =>
    intro st hst j
    refine ih (cachedGet build st i).2 ?_ j
    intro j'
    rcases hst i with ⟨hc, hk⟩ | ⟨hc, hk⟩
    · by_cases hji : j' = i
      · subst hji
        right
        constructor
        · simp [cachedGet, hc]
        · simp [cachedGet, hc, hk]
      · rcases hst j' with ⟨hc', hk'⟩ | ⟨hc', hk'⟩
        · left
          constructor
          · simp [cachedGet, hc, hji, hc']
          · simp [cachedGet, hc, hji, hk']
        · right
          constructor
          · simp [cachedGet, hc, hji, hc']
          · simp [cachedGet, hc, hji, hk']
    · have hst2 : (cachedGet build st i).2 = st := by
        simp [cachedGet, hc]
      rw [hst2]
      exact hst j'

/-- Helper: an immediately repeated access returns the same value and leaves
the state unchanged. -/
theorem cachedGet_idempotent {α : Type} (build : ℕ → α) (st : CacheState α) (idx : ℕ) :
    cachedGet build (cachedGet build st idx).2 idx =
      ((cachedGet build st idx).1, (cachedGet build st idx).2) := by
  rcases h : st.cache idx with _ | r
  · simp [cachedGet, h]
  · simp [cachedGet, h]

/-- C6: from any reachable state of the dataset object, a second `get(idx)`
returns a result structurally identical to the first call's result (and does
not change the cache), and over the whole lifetime — any sequence of accesses
from a fresh object — the builder body runs at most once for `idx`. -/
theorem C6_cache_memoization (α : Type) (build : ℕ → α) (ops : List ℕ) (idx : ℕ) :
    (cachedGet build (cachedGet build (runGets build ops (initCache α)) idx).2 idx).1 =
      (cachedGet build (runGets build ops (initCache α)) idx).1 ∧
    (cachedGet build (cachedGet build (runGets build ops (initCache α)) idx).2 idx).2 =
      (cachedGet build (runGets build ops (initCache α)) idx).2 ∧
    (runGets build ops (initCache α)).calls idx ≤ 1 := by
  refine ⟨?_, ?_, ?_⟩
  · rw [cachedGet_idempotent]
  · rw [cachedGet_idempotent]
  · rcases runGets_invariant build ops idx with ⟨_, hk⟩ | ⟨_, hk⟩
    · simp [hk]
    · simp [hk]

/-- C9: the weight normalization at data.py line 214 divides by the raw weight
sum with no guard, and runs before the pure-system assertion at lines 215-216.
So (first conjunct) a single-element parse is rejected with the pure-system
error regardless of the weight sum — even a zero sum reaches the assertion,
there being no division-by-zero guard in between — and (second conjunct)
under the precondition that the parsed weight sum is positive the divisor is
nonzero and the normalization is well-defined, its output summing to 1. -/
theorem C9_division_precondition (parse : String → Except Unit (List String × List ℚ))
    (getFea : String → Option (List ℚ)) (row : Row) (es : List String) (ws : List ℚ)
    (hp : parse row.composition = .ok (es, ws)) :
    (es.length = 1 → getitem parse getFea row = .raised .pureSystem) ∧
    (0 < ws.sum → ws.sum ≠ 0 ∧ (normalizeWeights ws).sum = 1) := by
  constructor
  · intro h1
    simp [getitem, hp, h1]
  · intro hpos
    exact ⟨ne_of_gt hpos, normalizeWeights_sum ws (ne_of_gt hpos)⟩

/-- C9 witness: a parser that yields the single element `["Fe"]` with weights
`[2, 3]` exercises both conjuncts at a concrete input. -/
theorem C9_division_precondition_witness :
    (fun s => if s = "W" then Except.ok (["Fe"], [(2 : ℚ), 3]) else Except.error ())
        "W" = Except.ok (["Fe"], [(2 : ℚ), 3]) ∧
    (((["Fe"] : List String).length = 1 →
        getitem (fun s => if s = "W" then Except.ok (["Fe"], [(2 : ℚ), 3]) else Except.error ())
          (fun _ => some [1]) ⟨"id9", "W", 0⟩ = .raised .pureSystem) ∧
      (0 < ([2, 3] : List ℚ).sum →
        ([2, 3] : List ℚ).sum ≠ 0 ∧ (normalizeWeights [2, 3]).sum = 1)) :=
  ⟨by simp,
    C9_division_precondition _ (fun _ => some [1]) ⟨"id9", "W", 0⟩ ["Fe"] [2, 3] (by simp)⟩

/-- Helper: taking a prefix of an append at exactly the first part's length
returns the first part. -/
theorem take_length_append {α : Type} (l₁ l₂ : List α) (n : ℕ) (h : n = l₁.length) :
    (l₁ ++ l₂).take n = l₁ := by
  subst h
  exact List.take_left l₁ l₂

/-- Helper: dropping past the first part of an append drops the remainder
from the second part. -/
theorem drop_length_append {α : Type} (l₁ l₂ : List α) (n m : ℕ) (h : n = l₁.length + m) :
    (l₁ ++ l₂).drop n = l₂.drop m := by
  subst h
  exact List.drop_append m

/-- Helper: the collation loop emits the composition strings in input
order. -/
theorem collateGo_comp (items : List Item) (i base : ℕ) :
    (collateGo items i base).batch_comp = items.map Item.comp := by
  induction items generalizing i base with
  | nil => rfl
  | cons it rest ih => simp [collateGo, ih]

/-- Helper: the collation loop emits the ids in input order. -/
theorem collateGo_ids (items : List Item) (i base : ℕ) :
    (collateGo items i base).batch_cry_ids = items.map Item.cry_id := by
  induction items generalizing i base with
  | nil => rfl
  | cons it rest ih => simp [collateGo, ih]

/-- Helper: item `k`'s weights appear unmodified as the `k`-th block of the
concatenated weights. -/
theorem collateGo_weights_block (items : List Item) :
    ∀ (i base k : ℕ) (hk : k < items.length),
    (((collateGo items i base).batch_atom_weights.drop (weightsOffset items k)).take
        (items.get ⟨k, hk⟩).graph.atom_weights.length) =
      (items.get ⟨k, hk⟩).graph.atom_weights := by
  induction items with
  | nil => intro i base k hk; exact absurd hk (by simp)
  | cons it rest ih =>
    intro i base k hk
    cases k with
    | zero =>
      simp only [weightsOffset, List.take_zero, List.map_nil, List.sum_nil,
        List.drop_zero, List.get_cons_zero, collateGo]
      exact take_length_append _ _ _ rfl
    | succ k =>
      simp only [weightsOffset, List.take_succ_cons, List.map_cons, List.sum_cons,
        List.get_cons_succ, collateGo]
      rw [drop_length_append _ _ _ (((rest.take k).map
        (fun x => x.graph.atom_weights.length)).sum) rfl]
      exact ih (i + 1) (base + natoms it) k (by simpa using hk)

/-- Helper: item `k`'s feature rows appear unmodified as the `k`-th block of
the concatenated features; the block boundaries are the running atom
offsets. -/
theorem collateGo_fea_block (items : List Item) :
    ∀ (i base k : ℕ) (hk : k < items.length),
    (((collateGo items i base).batch_atom_fea.drop (offsetBefore items k)).take
        (natoms (items.get ⟨k, hk⟩))) = (items.get ⟨k, hk⟩).graph.atom_fea := by
  induction items with
  | nil => intro i base k hk; exact absurd hk (by simp)
  | cons it rest ih =>
    intro i base k hk
    cases k with
    | zero =>
      simp only [offsetBefore, List.take_zero, List.map_nil, List.sum_nil,
        List.drop_zero, List.get_cons_zero, collateGo]
      exact take_length_append _ _ _ rfl
    | succ k =>
      have hoff : offsetBefore (it :: rest) (k + 1) =
          it.graph.atom_fea.length + offsetBefore rest k := by
        simp [offsetBefore, List.take_succ_cons, natoms]
      rw [hoff]
      simp only [collateGo, List.get_cons_succ]
      rw [List.drop_append]
      exact ih (i + 1) (base + natoms it) k (by simpa using hk)

/-- Helper: item `k`'s `self_fea_idx` contribution is its own list with every
entry shifted by the running `cry_base_idx` at item `k`. -/
theorem collateGo_self_block (items : List Item) :
    ∀ (i base k : ℕ) (hk : k < items.length),
    (((collateGo items i base).batch_self_fea_idx.drop (selfIdxOffset items k)).take
        (items.get ⟨k, hk⟩).graph.self_fea_idx.length) =
      (items.get ⟨k, hk⟩).graph.self_fea_idx.map
        (fun e => e + (base + offsetBefore items k)) := by
  induction items with
  | nil => intro i base k hk; exact absurd hk (by simp)
  | cons it rest ih =>
    intro i base k hk
    cases k with
    | zero =>
      simp only [selfIdxOffset, offsetBefore, List.take_zero, List.map_nil,
        List.sum_nil, List.drop_zero, List.get_cons_zero, collateGo, Nat.add_zero]
      exact take_length_append _ _ _ (by simp)
    | succ k =>
      have hoff : selfIdxOffset (it :: rest) (k + 1) =
          (it.graph.self_fea_idx.map (fun e => e + base)).length + selfIdxOffset rest k := by
        simp [selfIdxOffset, List.take_succ_cons]
      have hob : offsetBefore (it :: rest) (k + 1) =
          natoms it + offsetBefore rest k := by
        simp [offsetBefore, List.take_succ_cons]
      rw [hoff, hob]
      simp only [collateGo, List.get_cons_succ]
      rw [List.drop_append]
      rw [ih (i + 1) (base + natoms it) k (by simpa using hk)]
      congr 1
      funext e
      omega

/-- Helper: item `k`'s `nbr_fea_idx` contribution is its own list with every
entry shifted by the running `cry_base_idx` at item `k`. -/
theorem collateGo_nbr_block (items : List Item) :
    ∀ (i base k : ℕ) (hk : k < items.length),
    (((collateGo items i base).batch_nbr_fea_idx.drop (nbrIdxOffset items k)).take
        (items.get ⟨k, hk⟩).graph.nbr_fea_idx.length) =
      (items.get ⟨k, hk⟩).graph.nbr_fea_idx.map
        (fun e => e + (base + offsetBefore items k)) := by
  induction items with
  | nil => intro i base k hk; exact absurd hk (by simp)
  | cons it rest ih =>
    intro i base k hk
    cases k with
    | zero =>
      simp only [nbrIdxOffset, offsetBefore, List.take_zero, List.map_nil,
        List.sum_nil, List.drop_zero, List.get_cons_zero, collateGo, Nat.add_zero]
      exact take_length_append _ _ _ (by simp)
    | succ k =>
      have hoff : nbrIdxOffset (it :: rest) (k + 1) =
          (it.graph.nbr_fea_idx.map (fun e => e + base)).length + nbrIdxOffset rest k := by
        simp [nbrIdxOffset, List.take_succ_cons]
      have hob : offsetBefore (it :: rest) (k + 1) =
          natoms it + offsetBefore rest k := by
        simp [offsetBefore, List.take_succ_cons]
      rw [hoff, hob]
      simp only [collateGo, List.get_cons_succ]
      rw [List.drop_append]
      rw [ih (i + 1) (base + natoms it) k (by simpa using hk)]
      congr 1
      funext e
      omega

/-- Helper: the `k`-th block of `crystal_atom_idx` is `natoms` copies of the
enumeration counter value at item `k`. -/
theorem collateGo_crystal_block (items : List Item) :
    ∀ (i base k : ℕ) (hk : k < items.length),
    (((collateGo items i base).crystal_atom_idx.drop (offsetBefore items k)).take
        (natoms (items.get ⟨k, hk⟩))) =
      List.replicate (natoms (items.get ⟨k, hk⟩)) (i + k) := by
  induction items with
  | nil => intro i base k hk; exact absurd hk (by simp)
  | cons it rest ih =>
    intro i base k hk
    cases k with
    | zero =>
      simp only [offsetBefore, List.take_zero, List.map_nil, List.sum_nil,
        List.drop_zero, List.get_cons_zero, collateGo, Nat.add_zero]
      exact take_length_append _ _ _ (by simp)
    | succ k =>
      have hoff : offsetBefore (it :: rest) (k + 1) =
          (List.replicate (natoms it) i).length + offsetBefore rest k := by
        simp [offsetBefore, List.take_succ_cons]
      rw [hoff]
      simp only [collateGo, List.get_cons_succ]
      rw [List.drop_append]
      rw [ih (i + 1) (base + natoms it) k (by simpa using hk)]
      congr 1
      omega

/-- Helper: every `crystal_atom_idx` entry emitted by the loop is at least the
starting enumeration counter, so smaller indices never occur. -/
theorem collateGo_crystal_count_lt (items : List Item) :
    ∀ (i base c : ℕ), c < i → (collateGo items i base).crystal_atom_idx.count c = 0 := by
  induction items with
  | nil => intro i base c hc; rfl
  | cons it rest ih =>
    intro i base c hc
    simp only [collateGo, List.count_append, List.count_replicate]
    rw [ih (i + 1) (base + natoms it) c (by omega)]
    have : (i == c) = false := by simp; omega
    simp [this]

/-- Helper: `crystal_atom_idx` holds exactly `natoms` of item `k` copies of
the value the enumeration counter takes at item `k`, in total count. -/
theorem collateGo_crystal_count (items : List Item) :
    ∀ (i base k : ℕ) (hk : k < items.length),
    (collateGo items i base).crystal_atom_idx.count (i + k) =
      natoms (items.get ⟨k, hk⟩) := by
  induction items with
  | nil => intro i base k hk; exact absurd hk (by simp)
  | cons it rest ih =>
    intro i base k hk
    cases k with
    | zero =>
      simp only [collateGo, List.count_append, Nat.add_zero, List.get_cons_zero,
        List.count_replicate_self]
      rw [collateGo_crystal_count_lt rest (i + 1) (base + natoms it) i (by omega)]
      rfl
    | succ k =>
      simp only [collateGo, List.count_append, List.count_replicate,
        List.get_cons_succ]
      rw [show i + (k + 1) = (i + 1) + k by omega,
        ih (i + 1) (base + natoms it) k (by simpa using hk)]
      have h1 : (i == (i + 1) + k) = false := by
        simp only [beq_eq_false_iff_ne]
        omega
      simp [h1]

/-- Helper: under the atom-graph length invariant, the weight-block offsets
coincide with the running atom offsets. -/
theorem weightsOffset_eq_offsetBefore (items : List Item) (k : ℕ)
    (hw : ∀ it ∈ items, it.graph.atom_weights.length = natoms it) :
    weightsOffset items k = offsetBefore items k :=
  congrArg List.sum
    (List.map_congr_left (fun it hit => hw it (List.take_subset k items hit)))

/-- C1: for every non-empty item list and item position `k`, collation
succeeds and, assuming the per-item atom-graph invariants (weights length
equals the atom count, index entries within `[0, natoms)`), item `k`'s
weights and features are appended unmodified, its self/neighbor index
contribution is the original entries shifted by the running offset (the sum
of the atom counts of the earlier items) and so lies in
`[offset, offset + natoms)`, `crystal_atom_idx` carries exactly `natoms`
copies of `k`, and the composition strings and ids keep input order. -/
theorem C1_collate_offsets (items : List Item) (hne : items ≠ []) (k : ℕ)
    (hk : k < items.length)
    (hw : ∀ it ∈ items, it.graph.atom_weights.length = natoms it)
    (hs : ∀ it ∈ items, ∀ e ∈ it.graph.self_fea_idx, e < natoms it)
    (hn : ∀ it ∈ items, ∀ e ∈ it.graph.nbr_fea_idx, e < natoms it) :
    ∃ b, collate_batch items = some b ∧
      itemContribution items k (items.get ⟨k, hk⟩) b ∧
      b.batch_comp = items.map Item.comp ∧
      b.batch_cry_ids = items.map Item.cry_id := by
  have hempty : items.isEmpty = false := by
    cases items with
    | nil => exact absurd rfl hne
    | cons a l => rfl
  refine ⟨collateGo items 0 0, by simp [collate_batch, hempty], ?_,
    collateGo_comp items 0 0, collateGo_ids items 0 0⟩
  have hget := List.get_mem items k hk
  have hself := collateGo_self_block items 0 0 k hk
  have hnbr := collateGo_nbr_block items 0 0 k hk
  simp only [Nat.zero_add] at hself hnbr
  refine ⟨?_, collateGo_fea_block items 0 0 k hk, hself, hnbr, ?_, ?_, ?_, ?_⟩
  · have hwb := collateGo_weights_block items 0 0 k hk
    rw [weightsOffset_eq_offsetBefore items k hw] at hwb
    rw [hw _ hget] at hwb
    exact hwb
  · rw [hself]
    intro e he
    simp only [List.mem_map] at he
    obtain ⟨x, hx, rfl⟩ := he
    have hxlt := hs _ hget x hx
    omega
  · rw [hnbr]
    intro e he
    simp only [List.mem_map] at he
    obtain ⟨x, hx, rfl⟩ := he
    have hxlt := hn _ hget x hx
    omega
  · have hcb := collateGo_crystal_block items 0 0 k hk
    simpa using hcb
  · have hcc := collateGo_crystal_count items 0 0 k hk
    simpa using hcc

/-- C1 witness: collating the two concrete items and reading off item 1's
contribution. -/
theorem C1_collate_offsets_witness :
    ([itemA, itemB] : List Item) ≠ [] ∧ 1 < ([itemA, itemB] : List Item).length ∧
    (∀ it ∈ [itemA, itemB], it.graph.atom_weights.length = natoms it) ∧
    (∀ it ∈ [itemA, itemB], ∀ e ∈ it.graph.self_fea_idx, e < natoms it) ∧
    (∀ it ∈ [itemA, itemB], ∀ e ∈ it.graph.nbr_fea_idx, e < natoms it) ∧
    (∃ b, collate_batch [itemA, itemB] = some b ∧
      itemContribution [itemA, itemB] 1 itemB b ∧
      b.batch_comp = [itemA, itemB].map Item.comp ∧
      b.batch_cry_ids = [itemA, itemB].map Item.cry_id) :=
  ⟨by simp, by simp, by decide, by decide, by decide,
    C1_collate_offsets [itemA, itemB] (by simp) 1 (by simp) (by decide) (by decide)
      (by decide)⟩

/-- C7 counterexample: on the empty input list `collate_batch` fails (the
final `torch.cat` calls reject an empty tensor list) instead of returning an
empty batch. -/
theorem C7_empty_input_fails : collate_batch ([] : List Item) = none := rfl

/-- C7 amended: the empty input list is the only failure mode — for every
non-empty input, collation succeeds and returns a batch. -/
theorem C7_nonempty_no_failure (items : List Item) (hne : items ≠ []) :
    ∃ b, collate_batch items = some b := by
  cases items with
  | nil => exact absurd rfl hne
  | cons it rest => exact ⟨collateGo (it :: rest) 0 0, rfl⟩

/-- C7 witness: a one-item list collates successfully. -/
theorem C7_nonempty_no_failure_witness :
    ([itemA] : List Item) ≠ [] ∧ ∃ b, collate_batch [itemA] = some b :=
  ⟨by simp, C7_nonempty_no_failure [itemA] (by simp)⟩

/-- C10: collating a single-item list is the identity embedding: all index
arrays are the item's own (offset 0), weights and features are the item's
own, and `crystal_atom_idx` is `natoms` zeros. -/
theorem C10_single_item_identity (it : Item) :
    collate_batch [it] = some ⟨it.graph.atom_weights, it.graph.atom_fea,
      it.graph.self_fea_idx, it.graph.nbr_fea_idx,
      List.replicate (natoms it) 0, [it.target], [it.comp], [it.cry_id]⟩ := by
  simp [collate_batch, collateGo]

/-- Helper: `elements[:i] + elements[i+1:]` has one element fewer than the
whole list, for any in-range `i`. -/
theorem nbrs_length (es : List String) (i : ℕ) (hi : i < es.length) :
    (es.take i ++ es.drop (i + 1)).length = es.length - 1 := by
  simp only [List.length_append, List.length_take, List.length_drop]
  omega

/-- Helper: pointwise-equal block functions give equal flat edge lists. -/
theorem flatMap_congr {α β : Type} (l : List α) (f g : α → List β)
    (h : ∀ a ∈ l, f a = g a) : l.flatMap f = l.flatMap g := by
  induction l with
  | nil => rfl
  | cons a rest ih =>
    simp only [List.flatMap_cons]
    rw [h a (by simp), ih (fun b hb => h b (by simp [hb]))]

/-- Helper: the per-`i` slice `env_idx[:i] + env_idx[i+1:]` of
`range M` is exactly `range M` filtered to the indices different from `i`. -/
theorem range_block_eq (M i : ℕ) (hi : i < M) :
    (List.range M).take i ++ (List.range M).drop (i + 1) =
      (List.range M).filter (fun j => j != i) := by
  obtain ⟨n, rfl⟩ : ∃ n, M = (i + 1) + n := ⟨M - (i + 1), by omega⟩
  have htake : (List.range ((i + 1) + n)).take i = List.range i := by
    rw [List.take_range, Nat.min_eq_left (by omega)]
  have hsplit : List.range ((i + 1) + n) =
      List.range (i + 1) ++ (List.range n).map (fun x => (i + 1) + x) :=
    List.range_add (i + 1) n
  have hdrop : (List.range ((i + 1) + n)).drop (i + 1) =
      (List.range n).map (fun x => (i + 1) + x) := by
    rw [hsplit, List.drop_append_of_le_length (by simp)]
    have h0 : (List.range (i + 1)).drop (i + 1) = [] := by
      apply List.drop_eq_nil_of_le
      simp
    rw [h0, List.nil_append]
  have hfilter : (List.range ((i + 1) + n)).filter (fun j => j != i) =
      List.range i ++ (List.range n).map (fun x => (i + 1) + x) := by
    rw [hsplit, List.range_succ, List.filter_append, List.filter_append]
    have h1 : (List.range i).filter (fun j => j != i) = List.range i := by
      apply List.filter_eq_self.mpr
      intro a ha
      simp only [List.mem_range] at ha
      simp only [bne_iff_ne, ne_eq]
      omega
    have h2 : ([i] : List ℕ).filter (fun j => j != i) = [] := by simp
    have h3 : ((List.range n).map (fun x => (i + 1) + x)).filter (fun j => j != i) =
        (List.range n).map (fun x => (i + 1) + x) := by
      apply List.filter_eq_self.mpr
      intro a ha
      simp only [List.mem_map, List.mem_range] at ha
      obtain ⟨x, hx, rfl⟩ := ha
      simp only [bne_iff_ne, ne_eq]
      omega
    rw [h1, h2, h3, List.append_nil]
  rw [htake, hdrop, hfilter]

/-- Helper: in a flat concatenation of equal-length blocks, the `k`-th block
sits at offset `k * L`. -/
theorem flatMap_drop_take {α β : Type} (f : β → List α) (L : ℕ) (l : List β) :
    ∀ (k : ℕ) (hk : k < l.length), (∀ b ∈ l, (f b).length = L) →
    ((l.flatMap f).drop (k * L)).take L = f l[k] := by
  induction l with
  | nil => intro k hk; exact absurd hk (by simp)
  | cons a rest ih =>
    intro k hk hlen
    cases k with
    | zero =>
      simp only [Nat.zero_mul, List.drop_zero, List.flatMap_cons,
        List.getElem_cons_zero]
      exact take_length_append _ _ _ (hlen a (by simp)).symm
    | succ k =>
      simp only [List.flatMap_cons, List.getElem_cons_succ]
      have hL : (k + 1) * L = (f a).length + k * L := by
        rw [hlen a (by simp)]
        ring
      rw [hL, List.drop_append]
      exact ih k (by simpa using hk) (fun b hb => hlen b (by simp [hb]))

/-- Helper: counting inside a flat list of constant blocks `[i] * n`. -/
theorem count_flatMap_replicate (l : List ℕ) (n c : ℕ) :
    (l.flatMap (fun i => List.replicate n i)).count c = n * l.count c := by
  induction l with
  | nil => simp
  | cons a rest ih =>
    simp only [List.flatMap_cons, List.count_append, ih, List.count_cons,
      List.count_replicate]
    by_cases hb : (a == c) = true
    · simp only [hb, if_true]
      ring
    · simp only [Bool.not_eq_true] at hb
      simp only [hb, Bool.false_eq_true, if_false]
      ring

/-- Helper: `self_fea_idx` in closed form — `M` blocks of `M - 1` repeated
indices. -/
theorem self_fea_idx_eq (es : List String) :
    self_fea_idx es = (List.range es.length).flatMap
      (fun i => List.replicate (es.length - 1) i) := by
  unfold self_fea_idx
  apply flatMap_congr
  intro i hi
  rw [nbrs_length es i (List.mem_range.mp hi)]

/-- Helper: the length of a flat concatenation of constant-length blocks. -/
theorem flatMap_length_const {α β : Type} (l : List α) (f : α → List β) (L : ℕ)
    (h : ∀ a ∈ l, (f a).length = L) : (l.flatMap f).length = l.length * L := by
  induction l with
  | nil => simp
  | cons a rest ih =>
    simp only [List.flatMap_cons, List.length_append, h a (by simp),
      ih (fun b hb => h b (by simp [hb])), List.length_cons]
    ring

/-- Helper: zipping two flat lists with blockwise-equal lengths zips
blockwise. -/
theorem flatMap_zip {α β γ : Type} (f : β → List α) (g : β → List γ) (l : List β)
    (h : ∀ b ∈ l, (f b).length = (g b).length) :
    (l.flatMap f).zip (l.flatMap g) = l.flatMap (fun b => (f b).zip (g b)) := by
  induction l with
  | nil => rfl
  | cons a rest ih =>
    simp only [List.flatMap_cons]
    rw [List.zip_append (h a (by simp)), ih (fun b hb => h b (by simp [hb]))]

/-- Helper: zipping a constant list against a block tags every block entry
with the constant. -/
theorem replicate_zip {α β : Type} (bl : List α) (i : β) (n : ℕ) (h : n = bl.length) :
    (List.replicate n i).zip bl = bl.map (fun j => (i, j)) := by
  subst h
  induction bl with
  | nil => rfl
  | cons a rest ih =>
    simp only [List.length_cons, List.replicate_succ, List.zip_cons_cons,
      List.map_cons, ih]

/-- C2: for every composition with `M` elements (`M ≥ 2`), the edge lists
have length exactly `M * (M - 1)`; each `i < M` appears exactly `M - 1` times
in `self_fea_idx`; the neighbor entries corresponding to `i` (its block) are
all `j ≠ i` in increasing order; and no edge position pairs an index with
itself. -/
theorem C2_fully_connected_edges (es : List String) (M : ℕ) (hM : es.length = M)
    (h2 : 2 ≤ M) : edgeSpec es M := by
  subst hM
  have hnb : ∀ b ∈ List.range es.length,
      ((List.range es.length).take b ++ (List.range es.length).drop (b + 1)).length
        = es.length - 1 := by
    intro b hb
    simp only [List.length_append, List.length_take, List.length_drop,
      List.length_range]
    have hb' := List.mem_range.mp hb
    omega
  refine ⟨?_, ?_, ?_, ?_, ?_⟩
  · rw [self_fea_idx_eq]
    have h := flatMap_length_const (List.range es.length)
      (fun i => List.replicate (es.length - 1) i) (es.length - 1) (by simp)
    simpa using h
  · unfold nbr_fea_idx
    have h := flatMap_length_const (List.range es.length)
      (fun j => (List.range es.length).take j ++ (List.range es.length).drop (j + 1))
      (es.length - 1) hnb
    simpa using h
  · intro i hi
    rw [self_fea_idx_eq, count_flatMap_replicate]
    have hc1 : (List.range es.length).count i = 1 :=
      List.count_eq_one_of_mem (List.nodup_range es.length) (List.mem_range.mpr hi)
    rw [hc1, Nat.mul_one]
  · intro i hi
    have hkr : i < (List.range es.length).length := by simpa using hi
    have hb := flatMap_drop_take
      (fun j => (List.range es.length).take j ++ (List.range es.length).drop (j + 1))
      (es.length - 1) (List.range es.length) i hkr hnb
    rw [List.getElem_range] at hb
    have hb' : ((nbr_fea_idx es).drop (i * (es.length - 1))).take (es.length - 1) =
        (List.range es.length).filter (fun j => j != i) := by
      rw [← range_block_eq es.length i hi]
      exact hb
    refine ⟨?_, ?_, ?_⟩
    · rw [self_fea_idx_eq]
      have hs := flatMap_drop_take (fun j => List.replicate (es.length - 1) j)
        (es.length - 1) (List.range es.length) i hkr (by simp)
      rw [List.getElem_range] at hs
      exact hs
    · rw [hb']
      exact List.Pairwise.sublist (List.filter_sublist _) (List.pairwise_lt_range es.length)
    · intro j
      rw [hb']
      simp [List.mem_filter, List.mem_range, bne_iff_ne]
  · intro p hp hq
    have hpz : p < ((self_fea_idx es).zip (nbr_fea_idx es)).length := by
      rw [List.length_zip]
      omega
    have hmem := List.getElem_mem hpz
    rw [List.getElem_zip] at hmem
    have hzip_eq : (self_fea_idx es).zip (nbr_fea_idx es) =
        (List.range es.length).flatMap (fun b =>
          (List.replicate (es.length - 1) b).zip
            ((List.range es.length).take b ++ (List.range es.length).drop (b + 1))) := by
      rw [self_fea_idx_eq]
      have hnu : nbr_fea_idx es = (List.range es.length).flatMap
          (fun j => (List.range es.length).take j ++ (List.range es.length).drop (j + 1)) :=
        rfl
      rw [hnu]
      exact flatMap_zip _ _ _ (by intro b hb; simp [hnb b hb])
    rw [hzip_eq] at hmem
    simp only [List.mem_flatMap] at hmem
    obtain ⟨i, hiR, hpair⟩ := hmem
    have hi : i < es.length := List.mem_range.mp hiR
    rw [replicate_zip _ i (es.length - 1) (hnb i hiR).symm] at hpair
    simp only [List.mem_map] at hpair
    obtain ⟨j, hj, hpq⟩ := hpair
    rw [range_block_eq es.length i hi] at hj
    simp only [List.mem_filter, bne_iff_ne] at hj
    have h1 : i = (self_fea_idx es)[p] := congrArg Prod.fst hpq
    have h2j : j = (nbr_fea_idx es)[p] := congrArg Prod.snd hpq
    rw [← h1, ← h2j]
    exact fun he => hj.2 he.symm

/-- C2 witness: the three-element composition `["Fe", "O", "H"]` satisfies the
edge contract with `M = 3`. -/
theorem C2_fully_connected_edges_witness :
    (["Fe", "O", "H"] : List String).length = 3 ∧ 2 ≤ 3 ∧
    edgeSpec ["Fe", "O", "H"] 3 :=
  ⟨rfl, by norm_num,
    C2_fully_connected_edges ["Fe", "O", "H"] 3 rfl (by norm_num)⟩

/-- C5 counterexample: on a row whose composition contains an element absent
from the featuriser table, `__getitem__` does not surface the failure to the
caller as a raised error: the `except AssertionError` handler catches it,
prints, and terminates the process. -/
theorem C5_unknown_element_not_raised :
    getitem parseFeZz feaFeOnly rowFeZz = Outcome.exited ∧
    (Outcome.exited : Outcome (AtomGraph × ℚ × String × String)) ≠
      Outcome.raised .parseError ∧
    (Outcome.exited : Outcome (AtomGraph × ℚ × String × String)) ≠
      Outcome.raised .pureSystem := by
  refine ⟨?_, by decide, by decide⟩
  decide

/-- C5 amended: parse failures and the pure-system rejection do propagate to
the caller as raised errors, and the unknown-element failure is not silently
swallowed — but instead of being raised it aborts the whole run: the handler
prints the composition and exits the process. -/
theorem C5_error_propagation (parse : String → Except Unit (List String × List ℚ))
    (getFea : String → Option (List ℚ)) (row : Row) :
    getitemBehavior parse getFea row := by
  refine ⟨?_, ?_, ?_⟩
  · intro u hu
    simp [getitem, hu]
  · intro es ws hp h1
    simp [getitem, hp, h1]
  · intro es ws hp h1 hfea
    simp only [getitem, hp]
    rw [if_neg h1, hfea]

/-- C5 amended witness: at the concrete stubs, a malformed composition raises
the parse error while the unknown element `Zz` leads to the process-exit
outcome. -/
theorem C5_error_propagation_witness :
    getitem parseFeZz feaFeOnly ⟨"id2", "???", 0⟩ = .raised .parseError ∧
    getitem parseFeZz feaFeOnly rowFeZz = .exited :=
  ⟨(C5_error_propagation parseFeZz feaFeOnly ⟨"id2", "???", 0⟩).1 () rfl,
    (C5_error_propagation parseFeZz feaFeOnly rowFeZz).2.2 ["Fe", "Zz"] [1, 1]
      rfl (by decide) (by decide)⟩
